import Mathlib

/-!
Verification of the MyPTV imaging module (`imaging_mod.py`).

The module contains two classes:

* `camera` — holds a pose (position `O`, rotation angles `theta`), an
  intrinsic focal depth `f`, a pixel `resolution`, and a derived rotation
  matrix `R`.  Methods: `calc_R` (recompute `R` from `theta`), `get_r`
  (pixel → lab-frame ray direction), `projection` (lab point → pixel),
  `give_name` (dynamic type check on the name argument).
* `img_system` — holds a list of cameras and performs pairwise epipolar
  triangulation in `stereo_match`.

The embedding uses exact real arithmetic (`ℝ`) in place of floating point,
matching the spec's "over exact real arithmetic" reading of the claims.
Python 3 true-division semantics are used for `/`, and the float literals
`1.0` / `2.0` of the source are written as the equal real numerals
`1` / `2`.

The helper `line_dist` lives in the repository's `utils` module, which is
not part of the sources given here; `stereo_match` is therefore
parameterised over the line-distance function, and a spec-modelled
`line_dist` is provided separately for claims that need its symmetry.
-/

open Real Matrix

/-- Lab-space 3-vectors, as functions from `Fin 3`. -/
abbrev V3 := Fin 3 → ℝ

/-- Matrix `Rx` from `camera.calc_R`: elemental rotation about the x axis. -/
noncomputable def Rx (t : ℝ) : Matrix (Fin 3) (Fin 3) ℝ :=
  !![1, 0, 0;
     0, Real.cos t, -Real.sin t;
     0, Real.sin t, Real.cos t]

/-- Matrix `Ry` from `camera.calc_R`: elemental rotation about the y axis. -/
noncomputable def Ry (t : ℝ) : Matrix (Fin 3) (Fin 3) ℝ :=
  !![Real.cos t, 0, Real.sin t;
     0, 1, 0;
     -Real.sin t, 0, Real.cos t]

/-- Matrix `Rz` from `camera.calc_R`: elemental rotation about the z axis. -/
noncomputable def Rz (t : ℝ) : Matrix (Fin 3) (Fin 3) ℝ :=
  !![Real.cos t, -Real.sin t, 0;
     Real.sin t, Real.cos t, 0;
     0, 0, 1]

/-- The matrix computed by `camera.calc_R`: `dot(dot(Rx, Ry), Rz)`. -/
noncomputable def calc_R_matrix (theta : V3) : Matrix (Fin 3) (Fin 3) ℝ :=
  (Rx (theta 0) * Ry (theta 1)) * Rz (theta 2)

/-- The `camera` class state: position `O`, rotation angles `theta`,
focal depth `f`, stored rotation matrix `R`, pixel `resolution`, `name`. -/
structure camera where
  name : String
  O : V3
  theta : V3
  f : ℝ
  R : Matrix (Fin 3) (Fin 3) ℝ
  resolution : ℤ × ℤ

/-- Method `camera.calc_R`: recomputes the stored rotation matrix from the
current angles (`self.R = dot(dot(Rx,Ry),Rz)`). -/
noncomputable def camera.calc_R (c : camera) : camera :=
  { c with R := calc_R_matrix c.theta }

/-- Method `camera.get_r(eta, zeta)`: first calls `self.calc_R()`, then returns
`dot([-eta_, -zeta_, -f], R)` where `eta_`, `zeta_` are the pixel
coordinates re-centered by half the resolution. -/
noncomputable def camera.get_r (c : camera) (eta zeta : ℝ) : V3 :=
  let c' := c.calc_R
  let eta_ := eta - (c.resolution.1 : ℝ) / 2
  let zeta_ := zeta - (c.resolution.2 : ℝ) / 2
  Matrix.vecMul ![-eta_, -zeta_, -c.f] c'.R

/-- Method `camera.projection(x)`: `v = dot(x - O, inv(R))`,
`a = -1.0 * v[2] / f`, and the pixel coordinates
`(-1.0 * v[0])/a + resolution[0]/2`, `(-1.0 * v[1])/a + resolution[1]/2`.
Uses the *stored* matrix `R` (no refresh). -/
noncomputable def camera.projection (c : camera) (x : V3) : Fin 2 → ℝ :=
  let v := Matrix.vecMul (x - c.O) c.R⁻¹
  let a := -1 * v 2 / c.f
  ![(-1 * v 0) / a + (c.resolution.1 : ℝ) / 2,
    (-1 * v 1) / a + (c.resolution.2 : ℝ) / 2]

section RotationLemmas

lemma Rx_transpose (t : ℝ) :
    (Rx t)ᵀ = !![1, 0, 0; 0, Real.cos t, Real.sin t; 0, -Real.sin t, Real.cos t] := by
  ext i j
  fin_cases i <;> fin_cases j <;> rfl

lemma Ry_transpose (t : ℝ) :
    (Ry t)ᵀ = !![Real.cos t, 0, -Real.sin t; 0, 1, 0; Real.sin t, 0, Real.cos t] := by
  ext i j
  fin_cases i <;> fin_cases j <;> rfl

lemma Rz_transpose (t : ℝ) :
    (Rz t)ᵀ = !![Real.cos t, Real.sin t, 0; -Real.sin t, Real.cos t, 0; 0, 0, 1] := by
  ext i j
  fin_cases i <;> fin_cases j <;> rfl

lemma Rx_mul_transpose (t : ℝ) : Rx t * (Rx t)ᵀ = 1 := by
  rw [Rx_transpose, Rx, Matrix.mul_fin_three, Matrix.one_fin_three]
  ext i j
  fin_cases i <;> fin_cases j <;> simp [Matrix.vecHead, Matrix.vecTail] <;> nlinarith [Real.sin_sq_add_cos_sq t]

lemma Ry_mul_transpose (t : ℝ) : Ry t * (Ry t)ᵀ = 1 := by
  rw [Ry_transpose, Ry, Matrix.mul_fin_three, Matrix.one_fin_three]
  ext i j
  fin_cases i <;> fin_cases j <;> simp [Matrix.vecHead, Matrix.vecTail] <;> nlinarith [Real.sin_sq_add_cos_sq t]

lemma Rz_mul_transpose (t : ℝ) : Rz t * (Rz t)ᵀ = 1 := by
  rw [Rz_transpose, Rz, Matrix.mul_fin_three, Matrix.one_fin_three]
  ext i j
  fin_cases i <;> fin_cases j <;> simp [Matrix.vecHead, Matrix.vecTail] <;> nlinarith [Real.sin_sq_add_cos_sq t]

lemma calc_R_matrix_mul_transpose (θ : V3) :
    calc_R_matrix θ * (calc_R_matrix θ)ᵀ = 1 := by
  have h : calc_R_matrix θ * (calc_R_matrix θ)ᵀ =
      Rx (θ 0) * ((Ry (θ 1) * ((Rz (θ 2) * (Rz (θ 2))ᵀ) * (Ry (θ 1))ᵀ)) * (Rx (θ 0))ᵀ) := by
    unfold calc_R_matrix
    simp only [Matrix.transpose_mul, Matrix.mul_assoc]
  rw [h, Rz_mul_transpose, Matrix.one_mul, Ry_mul_transpose, Matrix.one_mul,
    Rx_mul_transpose]

lemma calc_R_matrix_transpose_mul (θ : V3) :
    (calc_R_matrix θ)ᵀ * calc_R_matrix θ = 1 :=
  Matrix.mul_eq_one_comm.mp (calc_R_matrix_mul_transpose θ)

lemma calc_R_matrix_det_isUnit (θ : V3) : IsUnit (calc_R_matrix θ).det := by
  have h := calc_R_matrix_mul_transpose θ
  have hd : (calc_R_matrix θ).det * (calc_R_matrix θ).det = 1 := by
    have := congrArg Matrix.det h
    rwa [Matrix.det_mul, Matrix.det_transpose, Matrix.det_one] at this
  exact isUnit_of_mul_eq_one _ _ hd

lemma calc_R_matrix_inv_mul (θ : V3) :
    (calc_R_matrix θ)⁻¹ * calc_R_matrix θ = 1 :=
  Matrix.nonsing_inv_mul _ (calc_R_matrix_det_isUnit θ)

lemma Rx_zero : Rx 0 = 1 := by
  rw [Matrix.one_fin_three]
  simp [Rx]

lemma Ry_zero : Ry 0 = 1 := by
  rw [Matrix.one_fin_three]
  simp [Ry]

lemma Rz_zero : Rz 0 = 1 := by
  rw [Matrix.one_fin_three]
  simp [Rz]

lemma calc_R_matrix_zero : calc_R_matrix ![0, 0, 0] = 1 := by
  unfold calc_R_matrix
  simp [Rx_zero, Ry_zero, Rz_zero]

end RotationLemmas

/-- Python runtime values, used for the dynamically typed `name` argument
of `camera.give_name` (the source checks `type(name) == str`). -/
inductive PyValue where
  | pyStr : String → PyValue
  | pyInt : ℤ → PyValue
  | pyFloat : ℚ → PyValue
  | pyNone : PyValue
deriving DecidableEq

/-- Python exceptions raised by the module. -/
inductive PyError where
  | typeError : String → PyError
deriving DecidableEq

/-- Method `camera.give_name(name)`: stores the name if it is a string,
otherwise raises `TypeError('name must be string')`. -/
def camera.give_name (c : camera) (name : PyValue) : Except PyError camera :=
  match name with
  | .pyStr s => .ok { c with name := s }
  | _ => .error (.typeError "name must be string")

/-- Method `camera.__init__(name, resolution)` with `cal_points_fname = None`:
sets `O = zeros(3) + 1.`, `theta = zeros(3) + 1.`, `f = 1.0`, calls
`calc_R`, stores the resolution, then calls `give_name(name)`.  In Python
the `name` and `R` attributes do not exist before `give_name` / `calc_R`
run; the record is created with placeholder values that those calls
immediately overwrite. -/
noncomputable def camera.init (name : PyValue) (resolution : ℤ × ℤ) :
    Except PyError camera :=
  let c0 : camera :=
    { name := "", O := fun _ => 0 + 1, theta := fun _ => 0 + 1, f := 1,
      R := 1, resolution := (0, 0) }
  let c1 := c0.calc_R
  let c2 := { c1 with resolution := resolution }
  c2.give_name name

/-- Class `img_system`: an object that holds a number of cameras. -/
structure img_system where
  cameras : List camera

/-- The type of the `line_dist` helper that `stereo_match` imports from the
repository's `utils` module (not part of the given sources): it takes two
ray origins and directions and returns the closest-approach distance and
candidate point.  `stereo_match` is parameterised over it. -/
abbrev LineDistF := V3 → V3 → V3 → V3 → ℝ × V3

/-- Placeholder camera used to totalise list indexing (`self.cameras[ki]`);
reached only when a camera identifier does not resolve, which the spec
declares a precondition violation. -/
noncomputable def defaultCamera : camera :=
  { name := "", O := fun _ => 0, theta := fun _ => 0, f := 0, R := 1,
    resolution := (0, 0) }

/-- Index pairs enumerated by the nested loops
`for i in range(N): for j in range(i+1, N)` of `stereo_match`, in
iteration order. -/
def allPairs (N : ℕ) : List (ℕ × ℕ) :=
  (List.range N).flatMap fun i => (List.range' (i + 1) (N - (i + 1))).map fun j => (i, j)

/-- Observations are modelled as an association list from camera identifier
(Python dict key) to the observed pixel pair `(eta, zeta)`; a Python dict
has pairwise distinct keys, which theorems assume as `Nodup` hypotheses
where it matters.  This is the loop body of `stereo_match`: look up both
cameras, build their rays with `get_r`, call `line_dist`, and append the
candidate point, the two identifiers and the distance when
`D <= d_max`. -/
noncomputable def sm_step (lineDist : LineDistF) (cameras : List camera)
    (coords : List (ℕ × ℝ × ℝ)) (d_max : ℝ)
    (acc : List V3 × List ℕ × List ℝ) (ij : ℕ × ℕ) :
    List V3 × List ℕ × List ℝ :=
  let keys := coords.map Prod.fst
  let ki := keys.getD ij.1 0
  let O1 := (cameras.getD ki defaultCamera).O
  let ci := (coords.lookup ki).getD (0, 0)
  let r1 := (cameras.getD ki defaultCamera).get_r ci.1 ci.2
  let kj := keys.getD ij.2 0
  let O2 := (cameras.getD kj defaultCamera).O
  let cj := (coords.lookup kj).getD (0, 0)
  let r2 := (cameras.getD kj defaultCamera).get_r cj.1 cj.2
  let Dx := lineDist O1 r1 O2 r2
  if Dx.1 ≤ d_max then (acc.1 ++ [Dx.2], acc.2.1 ++ [ki, kj], acc.2.2 ++ [Dx.1])
  else acc

/-- The accumulation loop of `stereo_match`: the lists `x`, `cams`, `d`
after the nested `for` loops. -/
noncomputable def sm_loop (lineDist : LineDistF) (cameras : List camera)
    (coords : List (ℕ × ℝ × ℝ)) (d_max : ℝ) : List V3 × List ℕ × List ℝ :=
  (allPairs coords.length).foldl (sm_step lineDist cameras coords d_max) ([], [], [])

/-- Method `img_system.stereo_match(coords, d_max)`: runs the pairwise
loop; if at least one candidate was retained, returns
`(sum(x)/1.0/len(x), set(cams), sum(d)/1.0/len(x))`, otherwise `None`. -/
noncomputable def img_system.stereo_match (self : img_system)
    (lineDist : LineDistF) (coords : List (ℕ × ℝ × ℝ)) (d_max : ℝ) :
    Option (V3 × Finset ℕ × ℝ) :=
  let res := sm_loop lineDist self.cameras coords d_max
  let x := res.1
  let cams := res.2.1
  let d := res.2.2
  if 1 ≤ x.length then
    some (fun k => x.sum k / 1 / (x.length : ℝ), cams.toFinset,
      d.sum / 1 / (x.length : ℝ))
  else
    none

/-- The data `((ki, kj), D, x_ij)` computed by the loop body for the index
pair `ij`, written as a function so the loop can be characterised as a
filter over the exhaustive pair enumeration. -/
noncomputable def pairOf (lineDist : LineDistF) (cameras : List camera)
    (coords : List (ℕ × ℝ × ℝ)) (ij : ℕ × ℕ) : (ℕ × ℕ) × ℝ × V3 :=
  let keys := coords.map Prod.fst
  let ki := keys.getD ij.1 0
  let O1 := (cameras.getD ki defaultCamera).O
  let ci := (coords.lookup ki).getD (0, 0)
  let r1 := (cameras.getD ki defaultCamera).get_r ci.1 ci.2
  let kj := keys.getD ij.2 0
  let O2 := (cameras.getD kj defaultCamera).O
  let cj := (coords.lookup kj).getD (0, 0)
  let r2 := (cameras.getD kj defaultCamera).get_r cj.1 cj.2
  let Dx := lineDist O1 r1 O2 r2
  ((ki, kj), Dx.1, Dx.2)

/-- All pair data computed by `stereo_match`, one entry per enumerated
index pair. -/
noncomputable def pairsData (lineDist : LineDistF) (cameras : List camera)
    (coords : List (ℕ × ℝ × ℝ)) : List ((ℕ × ℕ) × ℝ × V3) :=
  (allPairs coords.length).map (pairOf lineDist cameras coords)

/-- The pair data retained by the `D <= d_max` test, in loop order. -/
noncomputable def retainedData (lineDist : LineDistF) (cameras : List camera)
    (coords : List (ℕ × ℝ × ℝ)) (d_max : ℝ) : List ((ℕ × ℕ) × ℝ × V3) :=
  (pairsData lineDist cameras coords).filter fun q => q.2.1 ≤ d_max

section LoopLemmas

lemma sm_step_eq_pairOf (lineDist : LineDistF) (cameras : List camera)
    (coords : List (ℕ × ℝ × ℝ)) (d_max : ℝ)
    (acc : List V3 × List ℕ × List ℝ) (ij : ℕ × ℕ) :
    sm_step lineDist cameras coords d_max acc ij =
      if (pairOf lineDist cameras coords ij).2.1 ≤ d_max then
        (acc.1 ++ [(pairOf lineDist cameras coords ij).2.2],
         acc.2.1 ++ [(pairOf lineDist cameras coords ij).1.1,
                     (pairOf lineDist cameras coords ij).1.2],
         acc.2.2 ++ [(pairOf lineDist cameras coords ij).2.1])
      else acc := rfl

lemma foldl_sm_step (lineDist : LineDistF) (cameras : List camera)
    (coords : List (ℕ × ℝ × ℝ)) (d_max : ℝ) (L : List (ℕ × ℕ)) :
    ∀ acc : List V3 × List ℕ × List ℝ,
      L.foldl (sm_step lineDist cameras coords d_max) acc =
        (acc.1 ++ ((L.map (pairOf lineDist cameras coords)).filter
            (fun q => q.2.1 ≤ d_max)).map (fun q => q.2.2),
         acc.2.1 ++ ((L.map (pairOf lineDist cameras coords)).filter
            (fun q => q.2.1 ≤ d_max)).flatMap (fun q => [q.1.1, q.1.2]),
         acc.2.2 ++ ((L.map (pairOf lineDist cameras coords)).filter
            (fun q => q.2.1 ≤ d_max)).map (fun q => q.2.1)) := by
  induction L with
  | nil => intro acc; simp
  | cons hd tl ih =>
    intro acc
    rw [List.foldl_cons, sm_step_eq_pairOf, List.map_cons, List.filter_cons]
    by_cases h : (pairOf lineDist cameras coords hd).2.1 ≤ d_max
    · rw [if_pos h, ih]
      simp [h, List.append_assoc]
    · rw [if_neg h, ih]
      simp [h]

lemma sm_loop_eq_retained (lineDist : LineDistF) (cameras : List camera)
    (coords : List (ℕ × ℝ × ℝ)) (d_max : ℝ) :
    sm_loop lineDist cameras coords d_max =
      ((retainedData lineDist cameras coords d_max).map (fun q => q.2.2),
       (retainedData lineDist cameras coords d_max).flatMap (fun q => [q.1.1, q.1.2]),
       (retainedData lineDist cameras coords d_max).map (fun q => q.2.1)) := by
  unfold sm_loop retainedData pairsData
  rw [foldl_sm_step]
  simp

end LoopLemmas

section CameraClaims

/-- Claim C1 (round-trip): for a camera whose stored rotation matrix is
consistent with its angles, with nonzero focal depth, and a lab point `x`
whose camera-frame coordinate `v = (x - O) · R⁻¹` has `v 2 ≠ 0` (not in
the focal plane), the ray direction `get_r` returns at the pixel
coordinates `projection x` is a nonzero scalar multiple of `x - O`, so the
line through the camera position with that direction passes through
`x`. -/
theorem C1_projection_get_r_round_trip (c : camera) (x : V3)
    (hR : c.R = calc_R_matrix c.theta) (hf : c.f ≠ 0)
    (hz : Matrix.vecMul (x - c.O) c.R⁻¹ 2 ≠ 0) :
    ∃ s : ℝ, s ≠ 0 ∧
      c.get_r (c.projection x 0) (c.projection x 1) = s • (x - c.O) ∧
      x = c.O + s⁻¹ • c.get_r (c.projection x 0) (c.projection x 1) := by
  set v : V3 := Matrix.vecMul (x - c.O) c.R⁻¹ with hv
  set a : ℝ := -1 * v 2 / c.f with ha
  have ha0 : a ≠ 0 := by
    rw [ha]
    exact div_ne_zero (by simpa using hz) hf
  have hproj0 : c.projection x 0 = (-1 * v 0) / a + (c.resolution.1 : ℝ) / 2 := by
    simp [camera.projection, hv, ha]
  have hproj1 : c.projection x 1 = (-1 * v 1) / a + (c.resolution.2 : ℝ) / 2 := by
    simp [camera.projection, hv, ha]
  have hfa : v 2 = -(a * c.f) := by
    rw [ha]
    field_simp
  have hvec : v = ![v 0, v 1, v 2] := by
    funext k
    fin_cases k <;> simp
  have hu : (![-(c.projection x 0 - (c.resolution.1 : ℝ) / 2),
      -(c.projection x 1 - (c.resolution.2 : ℝ) / 2), -c.f] : V3) = a⁻¹ • v := by
    rw [hproj0, hproj1]
    funext k
    fin_cases k
    · show -((-1 * v 0) / a + (c.resolution.1 : ℝ) / 2 - (c.resolution.1 : ℝ) / 2)
        = a⁻¹ * v 0
      field_simp
      ring
    · show -((-1 * v 1) / a + (c.resolution.2 : ℝ) / 2 - (c.resolution.2 : ℝ) / 2)
        = a⁻¹ * v 1
      field_simp
      ring
    · show -c.f = a⁻¹ * v 2
      rw [hfa]
      field_simp
      ring
  have hr : c.get_r (c.projection x 0) (c.projection x 1) = a⁻¹ • (x - c.O) := by
    show Matrix.vecMul ![-(c.projection x 0 - (c.resolution.1 : ℝ) / 2),
        -(c.projection x 1 - (c.resolution.2 : ℝ) / 2), -c.f]
        (calc_R_matrix c.theta) = a⁻¹ • (x - c.O)
    rw [hu, Matrix.vecMul_smul, hv, hR, Matrix.vecMul_vecMul,
      calc_R_matrix_inv_mul, Matrix.vecMul_one]
  refine ⟨a⁻¹, inv_ne_zero ha0, hr, ?_⟩
  rw [hr, inv_inv, smul_smul, mul_inv_cancel₀ ha0, one_smul]
  funext k
  simp

/-- Claim C7: for every angle triple, `calc_R` stores the matrix product
`Rx(tx) · Ry(ty) · Rz(tz)` of the elemental rotations in that order; in
particular, for angles `(0, 0, 0)` the stored matrix is the 3×3
identity. -/
theorem C7_calc_R_product_identity :
    (∀ c : camera,
      (c.calc_R).R = Rx (c.theta 0) * (Ry (c.theta 1) * Rz (c.theta 2))) ∧
    (∀ c : camera, c.theta = ![0, 0, 0] → (c.calc_R).R = 1) := by
  constructor
  · intro c
    show calc_R_matrix c.theta = _
    unfold calc_R_matrix
    rw [Matrix.mul_assoc]
  · intro c h0
    show calc_R_matrix c.theta = 1
    rw [h0, calc_R_matrix_zero]

/-- Claim C8: for every angle triple the matrix produced by `calc_R` is
orthonormal (`R · Rᵀ = 1` and `Rᵀ · R = 1`), every camera state produced
by `calc_R` stores exactly that matrix for its current angles, and `get_r`
reads the freshly recomputed matrix `calc_R_matrix theta` (it calls
`calc_R` first), so the matrix it uses is always orthonormal and
consistent with the current angles. -/
theorem C8_rotation_matrix_orthonormal :
    (∀ θ : V3, calc_R_matrix θ * (calc_R_matrix θ)ᵀ = 1 ∧
      (calc_R_matrix θ)ᵀ * calc_R_matrix θ = 1) ∧
    (∀ c : camera, (c.calc_R).R = calc_R_matrix c.theta ∧
      (c.calc_R).R * ((c.calc_R).R)ᵀ = 1 ∧ ((c.calc_R).R)ᵀ * (c.calc_R).R = 1) ∧
    (∀ (c : camera) (eta zeta : ℝ), c.get_r eta zeta =
      Matrix.vecMul ![-(eta - (c.resolution.1 : ℝ) / 2),
        -(zeta - (c.resolution.2 : ℝ) / 2), -c.f] (calc_R_matrix c.theta)) := by
  refine ⟨fun θ => ⟨calc_R_matrix_mul_transpose θ, calc_R_matrix_transpose_mul θ⟩,
    fun c => ⟨rfl, ?_, ?_⟩, fun c eta zeta => rfl⟩
  · exact calc_R_matrix_mul_transpose c.theta
  · exact calc_R_matrix_transpose_mul c.theta

/-- Claim C9: `give_name` stores a string argument as the camera's name
and raises `TypeError('name must be string')` exactly on non-string
arguments; `__init__`, which calls it, propagates the same behaviour. -/
theorem C9_give_name_type_check (c : camera) (n : PyValue) (res : ℤ × ℤ) :
    (match n with
     | .pyStr s =>
        c.give_name n = .ok { c with name := s } ∧
        ∃ c', camera.init n res = .ok c' ∧ c'.name = s
     | _ =>
        c.give_name n = .error (.typeError "name must be string") ∧
        camera.init n res = .error (.typeError "name must be string")) := by
  cases n with
  | pyStr s => exact ⟨rfl, ⟨_, rfl, rfl⟩⟩
  | pyInt m => exact ⟨rfl, rfl⟩
  | pyFloat q => exact ⟨rfl, rfl⟩
  | pyNone => exact ⟨rfl, rfl⟩

end CameraClaims

section CameraWitnesses

/-- Concrete camera for the witnesses: at the origin, zero angles, unit
focal depth, the stored matrix freshly computed from the angles. -/
noncomputable def camW : camera :=
  { name := "cam0", O := fun _ => 0, theta := ![0, 0, 0], f := 1,
    R := calc_R_matrix ![0, 0, 0], resolution := (0, 0) }

/-- Witness for C1 at the concrete camera `camW` and the point
`(0, 0, 1)`, which is off the focal plane. -/
theorem C1_projection_get_r_round_trip_witness :
    ∃ s : ℝ, s ≠ 0 ∧
      camW.get_r (camW.projection ![0, 0, 1] 0) (camW.projection ![0, 0, 1] 1)
        = s • (![0, 0, 1] - camW.O) ∧
      ![0, 0, 1] = camW.O + s⁻¹ •
        camW.get_r (camW.projection ![0, 0, 1] 0) (camW.projection ![0, 0, 1] 1) :=
  C1_projection_get_r_round_trip camW ![0, 0, 1] rfl one_ne_zero
    (by
      show Matrix.vecMul (![0, 0, 1] - camW.O) camW.R⁻¹ 2 ≠ 0
      have hW : camW.R = 1 := calc_R_matrix_zero
      rw [hW, inv_one, Matrix.vecMul_one]
      norm_num [camW])

/-- Witness for C7 at the concrete camera `camW`, whose angles are
`(0, 0, 0)`: both the product form and the identity case hold there. -/
theorem C7_calc_R_product_identity_witness :
    (camW.calc_R).R = Rx (camW.theta 0) * (Ry (camW.theta 1) * Rz (camW.theta 2)) ∧
    (camW.calc_R).R = 1 :=
  ⟨C7_calc_R_product_identity.1 camW, C7_calc_R_product_identity.2 camW rfl⟩

end CameraWitnesses

section StereoMatchEq

lemma stereo_match_eq (sys : img_system) (lineDist : LineDistF)
    (coords : List (ℕ × ℝ × ℝ)) (d_max : ℝ) :
    sys.stereo_match lineDist coords d_max =
      if 1 ≤ (retainedData lineDist sys.cameras coords d_max).length then
        some (fun k =>
            (((retainedData lineDist sys.cameras coords d_max).map
              (fun q => q.2.2)).sum k) / 1 /
              ((retainedData lineDist sys.cameras coords d_max).length : ℝ),
          ((retainedData lineDist sys.cameras coords d_max).flatMap
            (fun q => [q.1.1, q.1.2])).toFinset,
          ((retainedData lineDist sys.cameras coords d_max).map
            (fun q => q.2.1)).sum / 1 /
            ((retainedData lineDist sys.cameras coords d_max).length : ℝ))
      else none := by
  unfold img_system.stereo_match
  rw [sm_loop_eq_retained]
  simp only [List.length_map]

end StereoMatchEq

section StereoClaims1

/-- Claim C10 (implicit): with fewer than two observations the nested pair
loop runs zero iterations — no pair data is computed — and `stereo_match`
returns `None`, the same absence value as the no-consensus outcome, with
no error raised. -/
theorem C10_short_input_returns_none (sys : img_system) (lineDist : LineDistF)
    (coords : List (ℕ × ℝ × ℝ)) (d_max : ℝ) (h : coords.length ≤ 1) :
    sys.stereo_match lineDist coords d_max = none ∧
    pairsData lineDist sys.cameras coords = [] := by
  have hap : allPairs coords.length = [] := by
    interval_cases hN : coords.length
    · rfl
    · rfl
  have hpd : pairsData lineDist sys.cameras coords = [] := by
    unfold pairsData
    rw [hap, List.map_nil]
  refine ⟨?_, hpd⟩
  rw [stereo_match_eq]
  have hr : retainedData lineDist sys.cameras coords d_max = [] := by
    unfold retainedData
    rw [hpd, List.filter_nil]
  simp [hr]

/-- Claim C5: `stereo_match` returns the absence value `None` exactly when
zero pairs are retained; in particular, when every enumerated pair's
closest-approach distance strictly exceeds `d_max`, the result is `None`
(and, the embedding being a total function, no exception is raised). -/
theorem C5_no_consensus_returns_none (sys : img_system) (lineDist : LineDistF)
    (coords : List (ℕ × ℝ × ℝ)) (d_max : ℝ) :
    (sys.stereo_match lineDist coords d_max = none ↔
      retainedData lineDist sys.cameras coords d_max = []) ∧
    ((∀ q ∈ pairsData lineDist sys.cameras coords, d_max < q.2.1) →
      sys.stereo_match lineDist coords d_max = none) := by
  have hmain : sys.stereo_match lineDist coords d_max = none ↔
      retainedData lineDist sys.cameras coords d_max = [] := by
    rw [stereo_match_eq]
    by_cases hr : retainedData lineDist sys.cameras coords d_max = []
    · simp [hr]
    · have hlen : 1 ≤ (retainedData lineDist sys.cameras coords d_max).length :=
        Nat.one_le_iff_ne_zero.mpr (by simpa [List.length_eq_zero] using hr)
      simp [if_pos hlen, hr]
  refine ⟨hmain, fun hall => hmain.mpr ?_⟩
  unfold retainedData
  apply List.filter_eq_nil_iff.mpr
  intro q hq
  simpa using not_le.mpr (hall q hq)

end StereoClaims1

section StereoWitnesses1

/-- Concrete line-distance function for witnesses: distance 1, candidate
point at the origin, for every input. -/
def lineDistW : LineDistF := fun _ _ _ _ => (1, fun _ => 0)

/-- Concrete two-camera system for witnesses. -/
noncomputable def sysW : img_system := ⟨[camW, camW]⟩

/-- Witness for C10 at the empty observations mapping. -/
theorem C10_short_input_returns_none_witness :
    sysW.stereo_match lineDistW [] 0 = none ∧
    pairsData lineDistW sysW.cameras [] = [] :=
  C10_short_input_returns_none sysW lineDistW [] 0 (by simp)

/-- Witness for C5: two observations whose only pair has distance 1,
strictly above the threshold 0, so the result is `None`. -/
theorem C5_no_consensus_returns_none_witness :
    sysW.stereo_match lineDistW [(0, 0, 0), (1, 0, 0)] 0 = none :=
  (C5_no_consensus_returns_none sysW lineDistW [(0, 0, 0), (1, 0, 0)] 0).2
    (by
      intro q hq
      unfold pairsData at hq
      obtain ⟨ij, _, rfl⟩ := List.mem_map.mp hq
      show (0 : ℝ) < (pairOf lineDistW sysW.cameras [(0, 0, 0), (1, 0, 0)] ij).2.1
      norm_num [pairOf, lineDistW])

end StereoWitnesses1

section TwoCamera

lemma allPairs_two : allPairs 2 = [(0, 1)] := rfl

lemma pairOf_two (lineDist : LineDistF) (cameras : List camera) (k1 k2 : ℕ)
    (p1 p2 : ℝ × ℝ) (hk : k1 ≠ k2) :
    pairOf lineDist cameras [(k1, p1), (k2, p2)] (0, 1) =
      ((k1, k2),
       lineDist (cameras.getD k1 defaultCamera).O
         ((cameras.getD k1 defaultCamera).get_r p1.1 p1.2)
         (cameras.getD k2 defaultCamera).O
         ((cameras.getD k2 defaultCamera).get_r p2.1 p2.2)) := by
  have h21 : (k2 == k1) = false := by simp [Ne.symm hk]
  simp [pairOf, List.lookup, h21]

/-- Claim C2: for exactly two observations whose epipolar rays have
closest-approach distance `D ≤ d_max`, `stereo_match` returns exactly the
triple (the `line_dist` candidate point for that single pair, the set of
the two camera identifiers, `D` itself): averaging over the single
retained pair is the identity. -/
theorem C2_two_camera_exactness (sys : img_system) (lineDist : LineDistF)
    (k1 k2 : ℕ) (p1 p2 : ℝ × ℝ) (d_max : ℝ) (hk : k1 ≠ k2)
    (hD : (lineDist (sys.cameras.getD k1 defaultCamera).O
        ((sys.cameras.getD k1 defaultCamera).get_r p1.1 p1.2)
        (sys.cameras.getD k2 defaultCamera).O
        ((sys.cameras.getD k2 defaultCamera).get_r p2.1 p2.2)).1 ≤ d_max) :
    sys.stereo_match lineDist [(k1, p1), (k2, p2)] d_max =
      some ((lineDist (sys.cameras.getD k1 defaultCamera).O
          ((sys.cameras.getD k1 defaultCamera).get_r p1.1 p1.2)
          (sys.cameras.getD k2 defaultCamera).O
          ((sys.cameras.getD k2 defaultCamera).get_r p2.1 p2.2)).2,
        ({k1, k2} : Finset ℕ),
        (lineDist (sys.cameras.getD k1 defaultCamera).O
          ((sys.cameras.getD k1 defaultCamera).get_r p1.1 p1.2)
          (sys.cameras.getD k2 defaultCamera).O
          ((sys.cameras.getD k2 defaultCamera).get_r p2.1 p2.2)).1) := by
  set Dx := lineDist (sys.cameras.getD k1 defaultCamera).O
    ((sys.cameras.getD k1 defaultCamera).get_r p1.1 p1.2)
    (sys.cameras.getD k2 defaultCamera).O
    ((sys.cameras.getD k2 defaultCamera).get_r p2.1 p2.2) with hDx
  have hpd : pairsData lineDist sys.cameras [(k1, p1), (k2, p2)] =
      [((k1, k2), Dx)] := by
    unfold pairsData
    rw [show ([(k1, p1), (k2, p2)] : List (ℕ × ℝ × ℝ)).length = 2 from rfl,
      allPairs_two, List.map_cons, List.map_nil,
      pairOf_two lineDist sys.cameras k1 k2 p1 p2 hk, hDx]
  have hrd : retainedData lineDist sys.cameras [(k1, p1), (k2, p2)] d_max =
      [((k1, k2), Dx)] := by
    unfold retainedData
    rw [hpd]
    simp [hD]
  rw [stereo_match_eq, hrd]
  norm_num

end TwoCamera

section Aggregate

/-- Claim C3: whenever at least one pair is retained, `stereo_match`
returns exactly the arithmetic mean of the retained candidate points, the
set of camera identifiers appearing in at least one retained pair (each
exactly once, by `Finset` semantics), and the arithmetic mean of the
retained distances. -/
theorem C3_aggregate_mean_output (sys : img_system) (lineDist : LineDistF)
    (coords : List (ℕ × ℝ × ℝ)) (d_max : ℝ)
    (h : retainedData lineDist sys.cameras coords d_max ≠ []) :
    sys.stereo_match lineDist coords d_max =
      some (fun k =>
          (((retainedData lineDist sys.cameras coords d_max).map
            (fun q => q.2.2)).sum k) /
            ((retainedData lineDist sys.cameras coords d_max).length : ℝ),
        ((retainedData lineDist sys.cameras coords d_max).flatMap
          (fun q => [q.1.1, q.1.2])).toFinset,
        (((retainedData lineDist sys.cameras coords d_max).map
          (fun q => q.2.1)).sum) /
          ((retainedData lineDist sys.cameras coords d_max).length : ℝ)) ∧
    ∀ k : ℕ,
      k ∈ ((retainedData lineDist sys.cameras coords d_max).flatMap
        (fun q => [q.1.1, q.1.2])).toFinset ↔
      ∃ q ∈ retainedData lineDist sys.cameras coords d_max,
        q.1.1 = k ∨ q.1.2 = k := by
  have hlen : 1 ≤ (retainedData lineDist sys.cameras coords d_max).length :=
    Nat.one_le_iff_ne_zero.mpr (by simpa [List.length_eq_zero] using h)
  constructor
  · rw [stereo_match_eq, if_pos hlen]
    simp only [div_one]
  · intro k
    simp only [List.mem_toFinset, List.mem_flatMap, List.mem_cons,
      List.mem_singleton, List.not_mem_nil, or_false]
    constructor
    · rintro ⟨q, hq, hk | hk⟩
      · exact ⟨q, hq, Or.inl hk.symm⟩
      · exact ⟨q, hq, Or.inr hk.symm⟩
    · rintro ⟨q, hq, hk | hk⟩
      · exact ⟨q, hq, Or.inl hk.symm⟩
      · exact ⟨q, hq, Or.inr hk.symm⟩

end Aggregate

section StereoWitnesses2

lemma retainedData_witness_eq :
    retainedData lineDistW sysW.cameras [(0, 0, 0), (1, 0, 0)] 1 =
      [((0, 1), 1, fun _ => 0)] := by
  unfold retainedData pairsData
  rw [show ([(0, 0, 0), (1, 0, 0)] : List (ℕ × ℝ × ℝ)).length = 2 from rfl,
    allPairs_two, List.map_cons, List.map_nil,
    pairOf_two lineDistW sysW.cameras 0 1 (0, 0) (0, 0) (by decide)]
  norm_num [lineDistW]

/-- Witness for C2 at the concrete system `sysW`, identifiers 0 and 1,
observations at the pixel origin, threshold 1. -/
theorem C2_two_camera_exactness_witness :
    sysW.stereo_match lineDistW [(0, 0, 0), (1, 0, 0)] 1 =
      some ((fun _ => 0 : V3), ({0, 1} : Finset ℕ), 1) :=
  C2_two_camera_exactness sysW lineDistW 0 1 (0, 0) (0, 0) 1 (by decide)
    (by norm_num [lineDistW])

/-- Witness for C3 at the same concrete inputs, where exactly one pair is
retained. -/
theorem C3_aggregate_mean_output_witness :
    sysW.stereo_match lineDistW [(0, 0, 0), (1, 0, 0)] 1 =
      some (fun k =>
          (((retainedData lineDistW sysW.cameras [(0, 0, 0), (1, 0, 0)] 1).map
            (fun q => q.2.2)).sum k) /
            ((retainedData lineDistW sysW.cameras [(0, 0, 0), (1, 0, 0)] 1).length : ℝ),
        ((retainedData lineDistW sysW.cameras [(0, 0, 0), (1, 0, 0)] 1).flatMap
          (fun q => [q.1.1, q.1.2])).toFinset,
        (((retainedData lineDistW sysW.cameras [(0, 0, 0), (1, 0, 0)] 1).map
          (fun q => q.2.1)).sum) /
          ((retainedData lineDistW sysW.cameras [(0, 0, 0), (1, 0, 0)] 1).length : ℝ)) ∧
    ∀ k : ℕ,
      k ∈ ((retainedData lineDistW sysW.cameras [(0, 0, 0), (1, 0, 0)] 1).flatMap
        (fun q => [q.1.1, q.1.2])).toFinset ↔
      ∃ q ∈ retainedData lineDistW sysW.cameras [(0, 0, 0), (1, 0, 0)] 1,
        q.1.1 = k ∨ q.1.2 = k :=
  C3_aggregate_mean_output sysW lineDistW [(0, 0, 0), (1, 0, 0)] 1
    (by rw [retainedData_witness_eq]; exact List.cons_ne_nil _ _)

end StereoWitnesses2

section PairEnumeration

lemma mem_range_one (s n m : ℕ) : m ∈ List.range' s n ↔ s ≤ m ∧ m < s + n := by
  rw [List.mem_range']
  constructor
  · rintro ⟨i, hi, rfl⟩
    omega
  · rintro ⟨h1, h2⟩
    exact ⟨m - s, by omega, by omega⟩

lemma mem_allPairs (N i j : ℕ) : (i, j) ∈ allPairs N ↔ i < j ∧ j < N := by
  unfold allPairs
  simp only [List.mem_flatMap, List.mem_map, List.mem_range, mem_range_one,
    Prod.mk.injEq]
  constructor
  · rintro ⟨a, ha, b, ⟨hb1, hb2⟩, rfl, rfl⟩
    omega
  · rintro ⟨hij, hj⟩
    exact ⟨i, by omega, j, ⟨by omega, by omega⟩, rfl, rfl⟩

lemma allPairs_nodup (N : ℕ) : (allPairs N).Nodup := by
  unfold allPairs
  rw [List.nodup_flatMap]
  constructor
  · intro i _
    have hinj : Function.Injective (fun j => ((i, j) : ℕ × ℕ)) := fun a b h => by
      simpa using congrArg Prod.snd h
    exact (List.nodup_range' _ _).map hinj
  · refine (List.pairwise_lt_range N).imp ?_
    intro a b hab x hxa hxb
    obtain ⟨ja, _, rfl⟩ := List.mem_map.mp hxa
    obtain ⟨jb, _, heq⟩ := List.mem_map.mp hxb
    have : b = a := congrArg Prod.fst heq
    omega

lemma list_sum_map_range (f : ℕ → ℕ) (n : ℕ) :
    ((List.range n).map f).sum = ∑ i ∈ Finset.range n, f i := by
  induction n with
  | zero => rfl
  | succ m ih =>
    rw [List.range_succ, List.map_append, List.sum_append, Finset.sum_range_succ, ih]
    simp

lemma allPairs_length (N : ℕ) : (allPairs N).length = N.choose 2 := by
  unfold allPairs
  rw [List.flatMap_def, List.length_flatten, List.map_map]
  have hlen : ∀ i ∈ List.range N,
      (List.length ∘ fun i => (List.range' (i + 1) (N - (i + 1))).map fun j => (i, j)) i
        = N - (i + 1) := fun i _ => by simp
  rw [List.map_congr_left hlen, list_sum_map_range]
  have h1 : ∀ i ∈ Finset.range N, N - (i + 1) = N - 1 - i := fun i _ => by omega
  rw [Finset.sum_congr rfl h1, Finset.sum_range_reflect (fun i => i) N,
    Finset.sum_range_id, Nat.choose_two_right]

/-- Claim C4: the nested loops enumerate exactly the C(N,2) index pairs
`i < j < N`, each exactly once; for each pair the loop body computes the
two cameras' rays via `get_r` at their own observed coordinates and calls
`line_dist` (the content of `pairOf`); and a pair's candidate point and
distance are retained if and only if its distance satisfies `D ≤ d_max`
(equality included). -/
theorem C4_exhaustive_pairs_threshold (sys : img_system) (lineDist : LineDistF)
    (coords : List (ℕ × ℝ × ℝ)) (d_max : ℝ) :
    (∀ i j : ℕ, (i, j) ∈ allPairs coords.length ↔ i < j ∧ j < coords.length) ∧
    (allPairs coords.length).Nodup ∧
    (allPairs coords.length).length = coords.length.choose 2 ∧
    sm_loop lineDist sys.cameras coords d_max =
      ((retainedData lineDist sys.cameras coords d_max).map fun q => q.2.2,
       (retainedData lineDist sys.cameras coords d_max).flatMap fun q => [q.1.1, q.1.2],
       (retainedData lineDist sys.cameras coords d_max).map fun q => q.2.1) ∧
    ∀ q, q ∈ retainedData lineDist sys.cameras coords d_max ↔
      q ∈ pairsData lineDist sys.cameras coords ∧ q.2.1 ≤ d_max := by
  refine ⟨fun i j => mem_allPairs _ i j, allPairs_nodup _, allPairs_length _,
    sm_loop_eq_retained _ _ _ _, fun q => ?_⟩
  unfold retainedData
  simp [List.mem_filter]

end PairEnumeration

section OrderInvariance

/-- The loop-body data computed from two observation entries directly
(each entry is a key together with its observed pixel pair); with
duplicate-free keys this is what `pairOf` computes at the entries'
positions. -/
noncomputable def entryPair (lineDist : LineDistF) (cameras : List camera)
    (e1 e2 : ℕ × ℝ × ℝ) : (ℕ × ℕ) × ℝ × V3 :=
  let O1 := (cameras.getD e1.1 defaultCamera).O
  let r1 := (cameras.getD e1.1 defaultCamera).get_r e1.2.1 e1.2.2
  let O2 := (cameras.getD e2.1 defaultCamera).O
  let r2 := (cameras.getD e2.1 defaultCamera).get_r e2.2.1 e2.2.2
  let Dx := lineDist O1 r1 O2 r2
  ((e1.1, e2.1), Dx.1, Dx.2)

/-- Upper-triangle pair contributions of a list: `g` applied to every
earlier/later element pair, in loop order. -/
def pairContribs {α γ : Type _} (g : α → α → γ) : List α → List γ
  | [] => []
  | a :: t => (t.map (g a)) ++ pairContribs g t

/-- Order-insensitive view of one pair's data: distance, candidate point,
and the unordered identifier set. -/
def normPair (q : (ℕ × ℕ) × ℝ × V3) : ℝ × V3 × Finset ℕ :=
  (q.2.1, q.2.2, ({q.1.1, q.1.2} : Finset ℕ))

lemma lookup_of_mem_of_nodup :
    ∀ (coords : List (ℕ × ℝ × ℝ)), (coords.map Prod.fst).Nodup →
      ∀ e : ℕ × ℝ × ℝ, e ∈ coords → coords.lookup e.1 = some e.2 := by
  intro coords
  induction coords with
  | nil => intro _ e he; cases he
  | cons a t ih =>
    intro hnd e he
    have hnd' : a.1 ∉ t.map Prod.fst ∧ (t.map Prod.fst).Nodup := by
      rw [List.map_cons, List.nodup_cons] at hnd
      exact hnd
    rcases List.mem_cons.mp he with he | he
    · subst he
      simp [List.lookup]
    · have hne : e.1 ≠ a.1 := by
        intro hcontra
        exact hnd'.1 (hcontra ▸ List.mem_map_of_mem Prod.fst he)
      have hbeq : (e.1 == a.1) = false := by simp [hne]
      rw [List.lookup, hbeq]
      exact ih hnd'.2 e he

lemma keys_getD_eq_get (coords : List (ℕ × ℝ × ℝ)) (i : ℕ) (h : i < coords.length) :
    (coords.map Prod.fst).getD i 0 = (coords.get ⟨i, h⟩).1 := by
  rw [List.getD_eq_getElem _ _ (by simpa using h)]
  simp

lemma pairOf_eq_entryPair (lineDist : LineDistF) (cameras : List camera)
    (coords : List (ℕ × ℝ × ℝ)) (hnd : (coords.map Prod.fst).Nodup)
    (i j : ℕ) (hi : i < coords.length) (hj : j < coords.length) :
    pairOf lineDist cameras coords (i, j) =
      entryPair lineDist cameras (coords.get ⟨i, hi⟩) (coords.get ⟨j, hj⟩) := by
  have hke : ∀ (m : ℕ) (hm : m < coords.length),
      (coords.map Prod.fst).getD m 0 = (coords.get ⟨m, hm⟩).1 :=
    fun m hm => keys_getD_eq_get coords m hm
  have hle : ∀ (m : ℕ) (hm : m < coords.length),
      (coords.lookup ((coords.map Prod.fst).getD m 0)).getD (0, 0) =
        (coords.get ⟨m, hm⟩).2 := by
    intro m hm
    rw [hke m hm, lookup_of_mem_of_nodup coords hnd _ (coords.get_mem m hm)]
    rfl
  simp only [pairOf, entryPair]
  rw [hle i hi, hle j hj, hke i hi, hke j hj]

lemma range'_succ_left_map (s n : ℕ) :
    List.range' (s + 1) n = (List.range' s n).map (· + 1) := by
  induction n generalizing s with
  | zero => rfl
  | succ m ih =>
    rw [List.range'_succ, List.range'_succ, List.map_cons, ih (s + 1)]

lemma allPairs_succ (n : ℕ) :
    allPairs (n + 1) =
      ((List.range' 1 n).map fun j => ((0 : ℕ), j)) ++
        (allPairs n).map fun ij => (ij.1 + 1, ij.2 + 1) := by
  unfold allPairs
  rw [List.range_succ_eq_map, List.flatMap_cons, List.map_flatMap, List.flatMap_map]
  congr 1
  apply congrArg (List.flatMap (List.range n))
  funext a
  have hm : n + 1 - (a + 1 + 1) = n - (a + 1) := by omega
  show (List.range' (a + 1 + 1) (n + 1 - (a + 1 + 1))).map (fun j => (a + 1, j))
    = ((List.range' (a + 1) (n - (a + 1))).map fun j => (a, j)).map
        fun ij => (ij.1 + 1, ij.2 + 1)
  rw [hm, range'_succ_left_map (a + 1) (n - (a + 1)), List.map_map, List.map_map]
  simp [Function.comp]

lemma map_pairOf_eq_pairContribs (lineDist : LineDistF) (cameras : List camera) :
    ∀ coords : List (ℕ × ℝ × ℝ), (coords.map Prod.fst).Nodup →
      (allPairs coords.length).map (pairOf lineDist cameras coords) =
        pairContribs (entryPair lineDist cameras) coords := by
  intro coords
  induction coords with
  | nil => intro _; rfl
  | cons a t ih =>
    intro hnd
    have hnd' : (t.map Prod.fst).Nodup := by
      rw [List.map_cons, List.nodup_cons] at hnd
      exact hnd.2
    show (allPairs (t.length + 1)).map (pairOf lineDist cameras (a :: t)) = _
    rw [allPairs_succ, List.map_append, List.map_map, List.map_map]
    show _ = (t.map (entryPair lineDist cameras a)) ++
      pairContribs (entryPair lineDist cameras) t
    congr 1
    · apply List.ext_getElem
      · simp
      · intro idx h1 h2
        have hidx : idx < t.length := by simpa using h2
        have hr : idx < (List.range' 1 t.length).length := by simpa using hidx
        have hgr : (List.range' 1 t.length)[idx] = 1 + idx := by
          simp
        rw [List.getElem_map, List.getElem_map, hgr]
        show pairOf lineDist cameras (a :: t) (0, 1 + idx) = _
        have h0 : (0 : ℕ) < (a :: t).length := by simp
        have h1i : 1 + idx < (a :: t).length := by simp [Nat.add_comm]; omega
        rw [pairOf_eq_entryPair lineDist cameras (a :: t) hnd 0 (1 + idx) h0 h1i]
        congr 1
        show (a :: t).get ⟨1 + idx, h1i⟩ = t.get ⟨idx, hidx⟩
        have h1i' : idx + 1 < (a :: t).length := by simpa using Nat.succ_lt_succ hidx
        rw [show (⟨1 + idx, h1i⟩ : Fin (a :: t).length) = ⟨idx + 1, h1i'⟩ from by
          ext
          simp [Nat.add_comm]]
        exact List.get_cons_succ
    · rw [← ih hnd']
      apply List.map_congr_left
      intro ij hij
      obtain ⟨i, j⟩ := ij
      have hmem := (mem_allPairs t.length i j).mp hij
      have hi1 : i + 1 < (a :: t).length := by simp; omega
      have hj1 : j + 1 < (a :: t).length := by simp; omega
      have hit : i < t.length := by omega
      have hjt : j < t.length := by omega
      show pairOf lineDist cameras (a :: t) (i + 1, j + 1) = pairOf lineDist cameras t (i, j)
      rw [pairOf_eq_entryPair lineDist cameras (a :: t) hnd (i + 1) (j + 1) hi1 hj1,
        pairOf_eq_entryPair lineDist cameras t hnd' i j hit hjt]
      rfl

lemma pairContribs_map {α γ δ : Type _} (g : α → α → γ) (h : γ → δ) :
    ∀ l : List α, (pairContribs g l).map h = pairContribs (fun a b => h (g a b)) l := by
  intro l
  induction l with
  | nil => rfl
  | cons a t ih =>
    show ((t.map (g a)) ++ pairContribs g t).map h = _
    rw [List.map_append, List.map_map, ih]
    rfl

lemma pairContribs_perm {α γ : Type _} (g : α → α → γ)
    (hg : ∀ a b, g a b = g b a) {l l' : List α} (h : l.Perm l') :
    (pairContribs g l).Perm (pairContribs g l') := by
  induction h with
  | nil => exact List.Perm.refl _
  | cons x h ih => exact (h.map (g x)).append ih
  | swap x y l =>
    show ((x :: l).map (g y) ++ pairContribs g (x :: l)).Perm
      ((y :: l).map (g x) ++ pairContribs g (y :: l))
    show (g y x :: (l.map (g y) ++ (l.map (g x) ++ pairContribs g l))).Perm
      (g x y :: (l.map (g x) ++ (l.map (g y) ++ pairContribs g l)))
    rw [hg y x]
    apply List.Perm.cons
    rw [← List.append_assoc, ← List.append_assoc]
    exact List.perm_append_comm.append_right _
  | trans h1 h2 ih1 ih2 => exact ih1.trans ih2

lemma exists_key_of_norm_perm {A B : List ((ℕ × ℕ) × ℝ × V3)}
    (h : (A.map normPair).Perm (B.map normPair)) (k : ℕ)
    (hk : ∃ q ∈ A, k = q.1.1 ∨ k = q.1.2) : ∃ q ∈ B, k = q.1.1 ∨ k = q.1.2 := by
  obtain ⟨q, hq, hor⟩ := hk
  have hm : normPair q ∈ B.map normPair :=
    h.mem_iff.mp (List.mem_map_of_mem normPair hq)
  obtain ⟨q', hq', he⟩ := List.mem_map.mp hm
  refine ⟨q', hq', ?_⟩
  have hmem : k ∈ ({q.1.1, q.1.2} : Finset ℕ) := by
    rcases hor with h1 | h1 <;> simp [h1]
  have hfin : ({q'.1.1, q'.1.2} : Finset ℕ) = ({q.1.1, q.1.2} : Finset ℕ) :=
    congrArg (fun m => m.2.2) he
  rw [← hfin] at hmem
  simpa using hmem

/-- Claim C6 (order invariance): permuting the iteration order of the
observations mapping (a dict: duplicate-free keys) does not change the
result of `stereo_match`, over exact real arithmetic, provided the
line-distance function is symmetric under swapping its two rays — which
the repository's `line_dist` is (see `line_dist_symm` for the
spec-modelled version). -/
theorem C6_order_invariance (sys : img_system) (lineDist : LineDistF)
    (coords coords' : List (ℕ × ℝ × ℝ)) (d_max : ℝ)
    (hsym : ∀ O1 r1 O2 r2 : V3, lineDist O2 r2 O1 r1 = lineDist O1 r1 O2 r2)
    (hperm : coords.Perm coords') (hnd : (coords.map Prod.fst).Nodup) :
    sys.stereo_match lineDist coords d_max =
      sys.stereo_match lineDist coords' d_max := by
  have hnd' : (coords'.map Prod.fst).Nodup := (hperm.map Prod.fst).nodup_iff.mp hnd
  have hgsym : ∀ a b : ℕ × ℝ × ℝ,
      normPair (entryPair lineDist sys.cameras a b) =
        normPair (entryPair lineDist sys.cameras b a) := by
    intro a b
    unfold entryPair normPair
    dsimp only
    rw [hsym]
    rw [Finset.pair_comm]
  have hb : ∀ (cs : List (ℕ × ℝ × ℝ)), (cs.map Prod.fst).Nodup →
      (pairsData lineDist sys.cameras cs).map normPair =
        pairContribs (fun e1 e2 => normPair (entryPair lineDist sys.cameras e1 e2)) cs := by
    intro cs hcs
    unfold pairsData
    rw [map_pairOf_eq_pairContribs lineDist sys.cameras cs hcs, pairContribs_map]
  have hP : ((pairsData lineDist sys.cameras coords).map normPair).Perm
      ((pairsData lineDist sys.cameras coords').map normPair) := by
    rw [hb coords hnd, hb coords' hnd']
    exact pairContribs_perm _ hgsym hperm
  have hfilter : ∀ (cs : List (ℕ × ℝ × ℝ)),
      (retainedData lineDist sys.cameras cs d_max).map normPair =
        ((pairsData lineDist sys.cameras cs).map normPair).filter
          (fun m => decide (m.1 ≤ d_max)) := by
    intro cs
    unfold retainedData
    rw [List.filter_map]
    exact congrArg (List.map normPair) (List.filter_congr fun q _ => rfl)
  have hRn : ((retainedData lineDist sys.cameras coords d_max).map normPair).Perm
      ((retainedData lineDist sys.cameras coords' d_max).map normPair) := by
    rw [hfilter coords, hfilter coords']
    exact hP.filter _
  have hcount : (retainedData lineDist sys.cameras coords d_max).length =
      (retainedData lineDist sys.cameras coords' d_max).length := by
    have := hRn.length_eq
    simpa using this
  have hmapnorm : ∀ (cs : List (ℕ × ℝ × ℝ)),
      (((retainedData lineDist sys.cameras cs d_max).map fun q => q.2.2) =
        ((retainedData lineDist sys.cameras cs d_max).map normPair).map fun m => m.2.1) ∧
      (((retainedData lineDist sys.cameras cs d_max).map fun q => q.2.1) =
        ((retainedData lineDist sys.cameras cs d_max).map normPair).map fun m => m.1) := by
    intro cs
    constructor <;> rw [List.map_map] <;> rfl
  have hsum2 : ((retainedData lineDist sys.cameras coords d_max).map fun q => q.2.2).sum =
      ((retainedData lineDist sys.cameras coords' d_max).map fun q => q.2.2).sum := by
    rw [(hmapnorm coords).1, (hmapnorm coords').1]
    exact (hRn.map _).sum_eq
  have hsum1 : ((retainedData lineDist sys.cameras coords d_max).map fun q => q.2.1).sum =
      ((retainedData lineDist sys.cameras coords' d_max).map fun q => q.2.1).sum := by
    rw [(hmapnorm coords).2, (hmapnorm coords').2]
    exact (hRn.map _).sum_eq
  have hfin : ((retainedData lineDist sys.cameras coords d_max).flatMap
        fun q => [q.1.1, q.1.2]).toFinset =
      ((retainedData lineDist sys.cameras coords' d_max).flatMap
        fun q => [q.1.1, q.1.2]).toFinset := by
    apply Finset.ext
    intro k
    simp only [List.mem_toFinset, List.mem_flatMap, List.mem_cons,
      List.mem_singleton, List.not_mem_nil, or_false]
    constructor
    · intro hk
      exact exists_key_of_norm_perm hRn k hk
    · intro hk
      exact exists_key_of_norm_perm hRn.symm k hk
  rw [stereo_match_eq sys lineDist coords d_max, stereo_match_eq sys lineDist coords' d_max,
    hcount, hsum2, hsum1, hfin]

end OrderInvariance

section LineDistModel

/-- Dot product of two 3-vectors (numpy `dot` on length-3 arrays). -/
def dot3 (u v : V3) : ℝ := u 0 * v 0 + u 1 * v 1 + u 2 * v 2

/-- Modelled from the spec: the line parameter `t` of the closest point on
the first line, solving the 2×2 normal equations of spec §4.2 by Cramer's
rule.  The function `line_dist` itself lives in the repository's `utils`
module, which is not among the given sources. -/
noncomputable def lineT (O1 r1 O2 r2 : V3) : ℝ :=
  (-(dot3 (fun k => O2 k - O1 k) r1) * dot3 r2 r2
      + dot3 r1 r2 * dot3 (fun k => O2 k - O1 k) r2) /
    (dot3 r1 r2 * dot3 r1 r2 - dot3 r1 r1 * dot3 r2 r2)

/-- Modelled from the spec: the line parameter `s` of the closest point on
the second line (see `lineT`). -/
noncomputable def lineS (O1 r1 O2 r2 : V3) : ℝ :=
  (dot3 r1 r1 * dot3 (fun k => O2 k - O1 k) r2
      - dot3 r1 r2 * dot3 (fun k => O2 k - O1 k) r1) /
    (dot3 r1 r2 * dot3 r1 r2 - dot3 r1 r1 * dot3 r2 r2)

/-- Modelled from the spec: the closest point `P1 = O1 + t·r1` on the
first line. -/
noncomputable def closestP1 (O1 r1 O2 r2 : V3) : V3 :=
  fun k => O1 k + lineT O1 r1 O2 r2 * r1 k

/-- Modelled from the spec: the closest point `P2 = O2 + s·r2` on the
second line. -/
noncomputable def closestP2 (O1 r1 O2 r2 : V3) : V3 :=
  fun k => O2 k + lineS O1 r1 O2 r2 * r2 k

/-- Modelled from the spec: `line_dist` of the repository's `utils` module
(not among the given sources).  Per spec §4.2 it returns the Euclidean
distance between the closest points of the two lines and their midpoint as
the triangulated candidate. -/
noncomputable def line_dist (O1 r1 O2 r2 : V3) : ℝ × V3 :=
  (Real.sqrt (dot3
      (fun k => closestP1 O1 r1 O2 r2 k - closestP2 O1 r1 O2 r2 k)
      (fun k => closestP1 O1 r1 O2 r2 k - closestP2 O1 r1 O2 r2 k)),
   fun k => (closestP1 O1 r1 O2 r2 k + closestP2 O1 r1 O2 r2 k) / 2)

lemma lineT_swap (O1 r1 O2 r2 : V3) : lineT O2 r2 O1 r1 = lineS O1 r1 O2 r2 := by
  unfold lineT lineS dot3
  ring

lemma lineS_swap (O1 r1 O2 r2 : V3) : lineS O2 r2 O1 r1 = lineT O1 r1 O2 r2 := by
  unfold lineT lineS dot3
  ring

lemma closestP1_swap (O1 r1 O2 r2 : V3) :
    closestP1 O2 r2 O1 r1 = closestP2 O1 r1 O2 r2 := by
  funext k
  unfold closestP1 closestP2
  rw [lineT_swap]

lemma closestP2_swap (O1 r1 O2 r2 : V3) :
    closestP2 O2 r2 O1 r1 = closestP1 O1 r1 O2 r2 := by
  funext k
  unfold closestP1 closestP2
  rw [lineS_swap]

/-- The spec-modelled `line_dist` is symmetric under swapping the two
rays: the distance and the midpoint do not depend on the pair's order. -/
lemma line_dist_symm (O1 r1 O2 r2 : V3) :
    line_dist O2 r2 O1 r1 = line_dist O1 r1 O2 r2 := by
  unfold line_dist
  rw [closestP1_swap O1 r1 O2 r2, closestP2_swap O1 r1 O2 r2]
  refine Prod.ext ?_ ?_
  · show Real.sqrt _ = Real.sqrt _
    congr 1
    unfold dot3
    ring
  · show (fun k => (closestP2 O1 r1 O2 r2 k + closestP1 O1 r1 O2 r2 k) / 2) =
      fun k => (closestP1 O1 r1 O2 r2 k + closestP2 O1 r1 O2 r2 k) / 2
    funext k
    ring

/-- Witness for C6: swapping the two observations of a two-entry mapping,
with the spec-modelled symmetric `line_dist`. -/
theorem C6_order_invariance_witness :
    sysW.stereo_match line_dist [(0, 0, 0), (1, 0, 0)] 1 =
      sysW.stereo_match line_dist [(1, 0, 0), (0, 0, 0)] 1 :=
  C6_order_invariance sysW line_dist [(0, 0, 0), (1, 0, 0)] [(1, 0, 0), (0, 0, 0)] 1
    line_dist_symm (List.Perm.swap _ _ _) (by simp)

end LineDistModel
